import Mathlib

/-!
Verification development for the Highlightr editor extension.

The embedding models, at the level of character lists:
  * the three regular-expression substitutions used by `eraseHighlight`
    (`/\<mark style.*?[^\>]\>/g`, `/\<mark class.*?[^\>]\>/g`, `/\<\/mark>/g`),
  * the line scan of `selectMarkRegionIfInside`,
  * the word expansion of `selectWordIfNone`,
  * the template construction of `commandsMap`,
  * the buffer edit operations (`getRange` / `replaceRange`) of the host editor,
  * the add-highlight command (`applyCommand`) in both toggling modes, and the
    selection arithmetic of `eraseHighlight`.

Strings are modelled as `List Char`; a multi-line buffer is a list of lines
(each line not containing a newline character).  Scanning loops of the source
are modelled with an explicit fuel argument (always instantiated with the
length of the scanned text, which bounds the number of loop steps) so that all
definitions compute by kernel reduction.
-/

namespace Highlightr

abbrev Chars := List Char

/-- JS whitespace (ASCII part), as used by `String.prototype.trimStart/trimEnd`. -/
def isWs (c : Char) : Bool :=
  c == ' ' || c == '\t' || c == '\n' || c == '\r' || c == '\x0b' || c == '\x0c'

/-- JS `String.prototype.trimStart`. -/
def trimStartL (s : Chars) : Chars := s.dropWhile isWs

/-- JS `String.prototype.trimEnd`. -/
def trimEndL (s : Chars) : Chars := (s.reverse.dropWhile isWs).reverse

/-- JS `s.slice(-1)`: the last character as a (possibly empty) string. -/
def lastStr (s : Chars) : Chars :=
  match s.getLast? with
  | some c => [c]
  | none => []

/-- JS `\w` character class: `[A-Za-z0-9_]`. -/
def isWordChar (c : Char) : Bool := c.isAlphanum || c == '_'

/-- Characters that the JS regex `.` (without the `s` flag) does not match. -/
def isLineTerm (c : Char) : Bool :=
  c == '\n' || c == '\r' || c == ' ' || c == ' '

/-- The literal head of the pattern `/\<mark style.*?[^\>]\>/`. -/
def litStyle : Chars := "<mark style".toList

/-- The literal head of the pattern `/\<mark class.*?[^\>]\>/`. -/
def litClass : Chars := "<mark class".toList

/-- The literal pattern `/\<\/mark>/`. -/
def litClose : Chars := "</mark>".toList

/-- The literal `"<mark"` searched for by `selectMarkRegionIfInside`. -/
def litMark : Chars := "<mark".toList

/-- Completion of the lazy tail `.*?[^\>]\>` of the two opening-tag patterns:
the smallest `i` such that `cs[i] ≠ '>'`, `cs[i+1] = '>'`, and no character
before position `i` is a line terminator (the lazy `.*?` cannot cross one);
the match then ends after position `i+1`.  `none` when no such `i` exists. -/
def findLazyEnd : Chars → Option Nat
  | c1 :: c2 :: rest =>
    if c1 ≠ '>' ∧ c2 = '>' then some 0
    else if isLineTerm c1 then none
    else (findLazyEnd (c2 :: rest)).map (· + 1)
  | _ => none

/-- One global-replace pass of `/lit.*?[^\>]\>/g` by the empty string, with
explicit fuel (the scan consumes at least one character per step, so fuel
`s.length` is always enough when `lit` is non-empty). -/
def replOpenF (lit : Chars) : Nat → Chars → Chars
  | 0, s => s
  | _ + 1, [] => []
  | fuel + 1, c :: rest =>
    if lit.isPrefixOf (c :: rest) then
      match findLazyEnd ((c :: rest).drop lit.length) with
      | some i => replOpenF lit fuel (((c :: rest).drop lit.length).drop (i + 2))
      | none => c :: replOpenF lit fuel rest
    else c :: replOpenF lit fuel rest

/-- The call `s.replace(/lit.*?[^\>]\>/g, "")`. -/
def replOpen (lit : Chars) (s : Chars) : Chars := replOpenF lit s.length s

/-- One global-replace pass of a fixed literal by the empty string, fueled. -/
def replLitF (lit : Chars) : Nat → Chars → Chars
  | 0, s => s
  | _ + 1, [] => []
  | fuel + 1, c :: rest =>
    if lit.isPrefixOf (c :: rest) then replLitF lit fuel ((c :: rest).drop lit.length)
    else c :: replLitF lit fuel rest

/-- The call `s.replace(/lit/g, "")` for a fixed literal `lit`. -/
def replLit (lit : Chars) (s : Chars) : Chars := replLitF lit s.length s

/-- The three chained substitutions of `eraseHighlight`:
`.replace(/\<mark style.*?[^\>]\>/g, "").replace(/\<mark class.*?[^\>]\>/g, "").replace(/\<\/mark>/g, "")`. -/
def stripMarks (s : Chars) : Chars :=
  replLit litClose (replOpen litClass (replOpen litStyle s))

/-- The inline-style opening tag built by `commandsMap`:
`<mark style="background: ${color};">`. -/
def styleTag (color : Chars) : Chars :=
  "<mark style=\"background: ".toList ++ color ++ ";\">".toList

/-- The css-class opening tag built by `commandsMap`:
`<mark class="hltr-${key.toLowerCase()}">`. -/
def classTag (key : Chars) : Chars :=
  "<mark class=\"hltr-".toList ++ key.map Char.toLower ++ "\">".toList

/-- The closing tag used as `suffix` by `commandsMap`: `</mark>`. -/
def closeTag : Chars := "</mark>".toList


/-! ## Settings and template construction (`commandsMap`) -/

/-- The slice of `HighlightrSettings` consulted by `commandsMap`:
the style-mode string and the key → color mapping `highlighters`. -/
structure HSettings where
  highlighterMethods : String
  highlighters : List (String × String)
deriving DecidableEq

/-- JS property read `m[k]` on an object modelled as an association list:
a missing key yields `undefined`, which string interpolation renders as the
literal text `"undefined"`. -/
def jsIndex (m : List (String × String)) (k : String) : String :=
  match m.find? (fun p => p.1 == k) with
  | some p => p.2
  | none => "undefined"

/-- The `prefix` field of `commandsMap.highlight` for a given highlighter key:
`highlighterMethods === "css-classes" ? <mark class="hltr-${key.toLowerCase()}"> :
<mark style="background: ${highlighters[key]};">`. -/
def commandsMapPre (s : HSettings) (key : String) : Chars :=
  if s.highlighterMethods = "css-classes" then classTag key.toList
  else styleTag (jsIndex s.highlighters key).toList

/-! ## Positions and the line-oriented buffer -/

/-- A point in the line-oriented buffer (CodeMirror `{line, ch}`). -/
structure Pos where
  line : Nat
  ch : Nat
deriving DecidableEq, Repr

/-- A buffer is a list of lines; a well-formed line contains no `'\n'`. -/
abbrev Buffer := List Chars

/-- JS `s.split("\n")` (always returns at least one segment). -/
def splitNl : Chars → List Chars
  | [] => [[]]
  | c :: rest =>
    if c = '\n' then [] :: splitNl rest
    else
      match splitNl rest with
      | [] => [[c]]
      | s :: ss => (c :: s) :: ss

/-- Join segments with `'\n'` (inverse of `splitNl` on newline-free segments). -/
def joinNl : List Chars → Chars
  | [] => []
  | [x] => x
  | x :: xs => x ++ '\n' :: joinNl xs

/-- The read `editor.getRange(f, t)`: the text between two positions, with `'\n'`
separating lines. -/
def getRangeB (b : Buffer) (f t : Pos) : Chars :=
  let lineF := (b.get? f.line).getD []
  let lineT := (b.get? t.line).getD []
  if f.line = t.line then (lineF.drop f.ch).take (t.ch - f.ch)
  else joinNl ((lineF.drop f.ch) :: ((b.drop (f.line + 1)).take (t.line - f.line - 1) ++ [lineT.take t.ch]))

/-- Append a tail to the last element of a list of lines. -/
def attachLast : List Chars → Chars → List Chars
  | [], tail => [tail]
  | [x], tail => [x ++ tail]
  | x :: xs, tail => x :: attachLast xs tail

/-- Form the replacement lines: the first segment continues the kept head of
the start line, the last segment is continued by the kept tail of the end
line. -/
def glueLines (headPart tailPart : Chars) : List Chars → List Chars
  | [] => [headPart ++ tailPart]
  | [m] => [headPart ++ m ++ tailPart]
  | m :: ms => (headPart ++ m) :: attachLast ms tailPart

/-- The edit `editor.replaceRange(s, f, t)`: splice `s` (split on newlines) over the
region between `f` and `t`. -/
def replaceRangeB (b : Buffer) (f t : Pos) (s : Chars) : Buffer :=
  let lineF := (b.get? f.line).getD []
  let lineT := (b.get? t.line).getD []
  b.take f.line ++ glueLines (lineF.take f.ch) (lineT.drop t.ch) (splitNl s) ++ b.drop (t.line + 1)

/-- The buffer effect of `eraseHighlight` on the span `[f, t]`: replace the
range with the result of the three mark-stripping substitutions. -/
def eraseBufferText (b : Buffer) (f t : Pos) : Buffer :=
  replaceRangeB b f t (stripMarks (getRangeB b f t))

/-- The segment of `s` after its last `'\n'` (all of `s` when it has none):
the specification's "final segment". -/
def lastSeg : Chars → Chars
  | [] => []
  | c :: rest =>
    if rest.contains '\n' then lastSeg rest
    else if c = '\n' then rest
    else c :: lastSeg rest

/-- The `newTo` position computed by `eraseHighlight` in toggling mode from
`from` and the stripped text `newStr` (via `newStr.split("\n")`). -/
def eraseNewTo (f : Pos) (newStr : Chars) : Pos :=
  let lines := splitNl newStr
  if lines.length = 1 then ⟨f.line, f.ch + (lines.headD []).length⟩
  else ⟨f.line + (lines.length - 1), (lines.getLastD []).length⟩

/-! ## `selectMarkRegionIfInside`: scan of the current line -/

/-- JS `s.indexOf(pat)` for a non-empty pattern: position of the first match. -/
def firstIdx (pat : Chars) : Chars → Option Nat
  | [] => none
  | c :: rest =>
    if pat.isPrefixOf (c :: rest) then some 0
    else (firstIdx pat rest).map (· + 1)

/-- JS `s.indexOf(pat, start)` for a non-empty pattern. -/
def idxFrom (pat s : Chars) (start : Nat) : Option Nat :=
  (firstIdx pat (s.drop start)).map (· + start)

/-- The `while (true)` scan of `selectMarkRegionIfInside`, fueled: from
`searchPos`, find `"<mark"`, then `"</mark>"` after it; stop with the region
whose inclusive bracket contains the cursor column, advance past the close
index otherwise, and stop empty when either search fails. -/
def findMarkRegionF (lineText : Chars) (ch : Nat) : Nat → Nat → Option (Nat × Nat)
  | 0, _ => none
  | fuel + 1, searchPos =>
    match idxFrom litMark lineText searchPos with
    | none => none
    | some openIdx =>
      match idxFrom litClose lineText openIdx with
      | none => none
      | some closeRaw =>
        let closeIdx := closeRaw + litClose.length
        if openIdx ≤ ch ∧ ch ≤ closeIdx then some (openIdx, closeIdx)
        else findMarkRegionF lineText ch fuel closeIdx

/-- The mark region selected by `selectMarkRegionIfInside` for a cursor at
column `ch` of `lineText`, when no selection is active. -/
def findMarkRegion (lineText : Chars) (ch : Nat) : Option (Nat × Nat) :=
  findMarkRegionF lineText ch (lineText.length + 1) 0

/-- The candidate regions inspected by the scan, in scan order. -/
def markCandidatesF (lineText : Chars) : Nat → Nat → List (Nat × Nat)
  | 0, _ => []
  | fuel + 1, searchPos =>
    match idxFrom litMark lineText searchPos with
    | none => []
    | some openIdx =>
      match idxFrom litClose lineText openIdx with
      | none => []
      | some closeRaw =>
        (openIdx, closeRaw + litClose.length) ::
          markCandidatesF lineText fuel (closeRaw + litClose.length)

/-- All candidate regions of a line, in scan order. -/
def markCandidates (lineText : Chars) : List (Nat × Nat) :=
  markCandidatesF lineText (lineText.length + 1) 0

/-- Specification form of the scan: the first candidate region whose
inclusive bracket `[openStart, closeEnd]` contains the cursor column. -/
def markRegionSpec (lineText : Chars) (ch : Nat) : Option (Nat × Nat) :=
  (markCandidates lineText).find? (fun p => decide (p.1 ≤ ch ∧ ch ≤ p.2))

/-! ## `selectWordIfNone`: word expansion -/

/-- The left loop of `selectWordIfNone`:
`while (startCh > 0 && lineText[startCh - 1] !== " ") startCh--`.
(An out-of-range JS index yields `undefined`, which is `!== " "`.) -/
def wordStart (lineText : Chars) : Nat → Nat
  | 0 => 0
  | n + 1 => if lineText.get? n = some ' ' then n + 1 else wordStart lineText n

/-- Length of the initial run of non-space characters. -/
def spanNonSpace : Chars → Nat
  | [] => 0
  | c :: r => if c = ' ' then 0 else spanNonSpace r + 1

/-- The right loop of `selectWordIfNone`:
`while (endCh < lineText.length && lineText[endCh] !== " ") endCh++`. -/
def wordEnd (lineText : Chars) (ch : Nat) : Nat :=
  ch + spanNonSpace (lineText.drop ch)

/-- The text of the word selection made by `selectWordIfNone`. -/
def wordSlice (lineText : Chars) (ch : Nat) : Chars :=
  (lineText.drop (wordStart lineText ch)).take (wordEnd lineText ch - wordStart lineText ch)


/-! ## `applyCommand` -/

/-- Test of the regex `/<mark\b[^>]*>/i` at the head of `s`: a
case-insensitive `"<mark"`, a word boundary (the next character exists and is
not a `\w` character), then some later `'>'` with no `'>'` before it (which
holds exactly when the remainder contains a `'>'` at all). -/
def markOpenTestAt (s : Chars) : Bool :=
  ((s.take litMark.length).map Char.toLower == litMark) &&
    match s.drop litMark.length with
    | [] => false
    | c :: rest => !isWordChar c && (c :: rest).contains '>'

/-- The test `/<mark\b[^>]*>/i.test(s)`: the guard of the toggling strip branch of
`applyCommand`. -/
def markOpenTest : Chars → Bool
  | [] => false
  | c :: rest => markOpenTestAt (c :: rest) || markOpenTest rest


/-- Outcome of one `applyCommand` invocation restricted to a single line:
the new text of that line, plus the resulting selection or cursor. -/
structure ApplyOut where
  line : Chars
  selFrom : Option Pos
  selTo : Option Pos
  cursor : Option Pos
deriving DecidableEq, Repr

/-- Model of `applyCommand` with `useTogglingBehavior` enabled and no prior selection:
`selectWordIfNone` auto-selects the word under the cursor (so
`wordSelected = true`), then either the strip branch (guarded by
`markOpenTest` on the selected text) or the insert branch runs.  `lineNo` is
the cursor line, `ch` the cursor column, `pre`/`suf` the command's
prefix/suffix. -/
def applyToggleNoSel (pre suf : Chars) (lineNo : Nat) (lineText : Chars) (ch : Nat) : ApplyOut :=
  let s := wordStart lineText ch
  let e := wordEnd lineText ch
  let sel := (lineText.drop s).take (e - s)
  let a := lineText.take s
  let b := lineText.drop e
  if sel ≠ [] ∧ markOpenTest sel then
    let ns := stripMarks sel
    { line := a ++ ns ++ b
      selFrom := some ⟨lineNo, s⟩
      selTo := some ⟨lineNo, s + ns.length⟩
      cursor := none }
  else
    { line := a ++ pre ++ sel ++ suf ++ b
      selFrom := none
      selTo := none
      cursor := some ⟨lineNo, s + pre.length⟩ }

/-- Model of `applyCommand` with `useTogglingBehavior` enabled and a prior (single-line)
selection `sel`, the line being `a ++ sel ++ b` (so `wordSelected = false`,
`curserStart.ch = a.length`). -/
def applyToggleWithSel (pre suf : Chars) (lineNo : Nat) (a sel b : Chars) : ApplyOut :=
  if sel ≠ [] ∧ markOpenTest sel then
    let ns := stripMarks sel
    { line := a ++ ns ++ b
      selFrom := some ⟨lineNo, a.length⟩
      selTo := some ⟨lineNo, a.length + ns.length⟩
      cursor := none }
  else
    { line := a ++ pre ++ sel ++ suf ++ b
      selFrom := if sel ≠ [] then some ⟨lineNo, a.length⟩ else none
      selTo := if sel ≠ [] then some ⟨lineNo, a.length + pre.length + sel.length + suf.length⟩ else none
      cursor := if sel ≠ [] then none else some ⟨lineNo, a.length + pre.length⟩ }

/-- The guard of the merge branch in the toggling-disabled path of
`applyCommand`: `suf === suffix.trimEnd()`, then
`pre.slice(-1) === prefix.trimStart().slice(-1)` and a non-empty selection. -/
def mergeCondCode (pre suf : Chars) (preText sufText sel : Chars) : Bool :=
  sufText == trimEndL suf && lastStr preText == lastStr (trimStartL pre) && !sel.isEmpty

/-- The merge condition as the specification words it: the *last
non-whitespace character* of the preceding text (rather than its last
character) must equal the last character of the trimmed prefix. -/
def mergeCondSpec (pre suf : Chars) (preText sufText sel : Chars) : Prop :=
  sufText = trimEndL suf ∧ lastStr (trimEndL preText) = lastStr (trimStartL pre) ∧ sel ≠ []

instance (pre suf preText sufText sel : Chars) :
    Decidable (mergeCondSpec pre suf preText sufText sel) := by
  unfold mergeCondSpec; infer_instance

/-- Outcome of `applyCommand` in the toggling-disabled path; cursor columns
are integers because the source's arithmetic can go negative. -/
structure ApplyOutZ where
  line : Chars
  cursorLine : Int
  cursorCh : Int
deriving DecidableEq, Repr

/-- The toggling-disabled path of `applyCommand` on a single line
`a ++ sel ++ b` (selection `sel`, `curserStart.ch = a.length`,
`curserEnd.ch = a.length + sel.length`), for the `highlight` command of
`commandsMap` (whose `line` field is `0`).  `preText` is
`getRange(preStart, curserStart)` and `sufText` is
`getRange(curserEnd, sufEnd)`; CodeMirror clamps the out-of-range endpoints
of those reads to the line, which `List.drop`/`List.take` mirror. -/
def applyNoToggle (pre suf : Chars) (lineNo : Nat) (a sel b : Chars) : ApplyOutZ :=
  let cursorPos : Int := if sel.length > 0 then (pre.length : Int) + suf.length + 1 else (pre.length : Int)
  let preText := a.drop (a.length - pre.length)
  let sufText := b.take suf.length
  if mergeCondCode pre suf preText sufText sel then
    { line := a.take (a.length - pre.length) ++ sel ++ b.drop suf.length
      cursorLine := lineNo
      cursorCh := ((a.length : Int) + sel.length) + (cursorPos * (-1) + 8) }
  else
    { line := a ++ pre ++ sel ++ suf ++ b
      cursorLine := lineNo
      cursorCh := ((a.length : Int) + sel.length) + cursorPos }

/-- The raw (unclamped) column of `preStart` in `applyCommand`:
`curserStart.ch - prefix.length`. -/
def preStartCh (fromCh plen : Nat) : Int := (fromCh : Int) - plen

/-- The raw (unclamped) column of `sufEnd` in `applyCommand`:
`curserEnd.ch + suffix.length`. -/
def sufEndCh (toCh slen : Nat) : Int := (toCh : Int) + slen

/-! ## Generic list lemmas -/

lemma nilPre {l : Chars} : [] <+: l :=
  List.nil_prefix

lemma isPre_eq {l₁ l₂ : Chars} : l₁.isPrefixOf l₂ = true ↔ l₁ <+: l₂ :=
  List.isPrefixOf_iff_prefix

lemma infixOfPre {p q : Chars} (h : p <+: q) : p <:+: q :=
  List.IsPrefix.isInfix h

/-- Decompose a prefix of a concatenation. -/
lemma pre_append_cases {p : Chars} :
    ∀ {X : Chars} {Y : Chars}, p <+: X ++ Y →
      p <+: X ∨ (X <+: p ∧ p.drop X.length <+: Y) := by
  intro X
  induction X generalizing p with
  | nil => intro Y h; exact Or.inr ⟨nilPre, by simpa using h⟩
  | cons x X' ih =>
    intro Y h
    match p with
    | [] => exact Or.inl nilPre
    | a :: p' =>
      rw [List.cons_append, List.cons_prefix_cons] at h
      obtain ⟨rfl, h'⟩ := h
      rcases ih h' with h1 | ⟨h2, h3⟩
      · exact Or.inl (List.cons_prefix_cons.mpr ⟨rfl, h1⟩)
      · exact Or.inr ⟨List.cons_prefix_cons.mpr ⟨rfl, h2⟩, by simpa using h3⟩

lemma no_inf_of_pre {p q s : Chars} (hpq : p <+: q) (h : ¬ p <:+: s) : ¬ q <:+: s :=
  fun hq => h ((infixOfPre hpq).trans hq)

/-- A pattern absent from `X` and from `Y` and unable to straddle the border
(no proper tail of the pattern begins `Y`) is absent from `X ++ Y`. -/
lemma no_inf_append {p Y : Chars}
    (hY : ¬ p <:+: Y)
    (hk : ∀ k, k < p.length → 0 < k → ¬ (p.drop k <+: Y)) :
    ∀ {X : Chars}, ¬ p <:+: X → ¬ p <:+: X ++ Y := by
  intro X
  induction X with
  | nil => intro _ h; exact hY (by simpa using h)
  | cons x X' ih =>
    intro hX h
    rw [List.cons_append, List.infix_cons_iff] at h
    rcases h with h | h
    · rw [← List.cons_append] at h
      rcases pre_append_cases h with h1 | ⟨h2, h3⟩
      · exact hX (infixOfPre h1)
      · by_cases hlen : p.length ≤ (x :: X').length
        · have : x :: X' = p := List.IsPrefix.eq_of_length_le h2 hlen
          exact hX (this ▸ List.infix_rfl)
        · have hlt : (x :: X').length < p.length := Nat.lt_of_not_le hlen
          exact hk (x :: X').length hlt (Nat.succ_pos _) h3
    · have : ¬ p <:+: X' := by
        intro hc
        exact hX (List.infix_cons_iff.mpr (Or.inr hc))
      exact ih this h

/-- Symmetric form: a pattern absent from `X` and from `Y`, no proper head of
which ends `X`, is absent from `X ++ Y`. -/
lemma no_inf_append_left {p X Y : Chars}
    (hX : ¬ p <:+: X) (hY : ¬ p <:+: Y)
    (hk : ∀ k, k < p.length → 0 < k → ¬ (p.take k <:+ X)) :
    ¬ p <:+: X ++ Y := by
  suffices h : ∀ Z : Chars, Z <:+ X → ¬ p <:+: Z ++ Y by
    exact h X List.suffix_rfl
  intro Z
  induction Z with
  | nil => intro _ h; exact hY (by simpa using h)
  | cons z Z' ih =>
    intro hZ h
    rw [List.cons_append, List.infix_cons_iff] at h
    rcases h with h | h
    · rw [← List.cons_append] at h
      rcases pre_append_cases h with h1 | ⟨h2, h3⟩
      · exact hX ((infixOfPre h1).trans ( List.IsSuffix.isInfix hZ))
      · by_cases hlen : p.length ≤ (z :: Z').length
        · have : z :: Z' = p := List.IsPrefix.eq_of_length_le h2 hlen
          exact hX (this ▸ List.IsSuffix.isInfix hZ)
        · have hlt : (z :: Z').length < p.length := Nat.lt_of_not_le hlen
          have htake : p.take (z :: Z').length = z :: Z' :=
            ( List.prefix_iff_eq_take.mp h2).symm
          refine hk (z :: Z').length hlt (Nat.succ_pos _) ?_
          rw [htake]; exact hZ
    · exact ih ((List.suffix_cons z Z').trans hZ) h

/-- A pattern whose head character does not occur in `s` is absent from `s`. -/
lemma no_inf_of_head {c : Char} {p' s : Chars}
    (h : ∀ d ∈ s, d ≠ c) : ¬ (c :: p') <:+: s := by
  intro hc
  exact h c (hc.mem (List.mem_cons_self c p')) rfl

/-- A non-empty prefix of `c :: z` starts with `c`. -/
lemma pre_head {p z : Chars} {c : Char} (h : p <+: c :: z) :
    p = [] ∨ p.head? = some c := by
  match p with
  | [] => exact Or.inl rfl
  | a :: p' =>
    rw [List.cons_prefix_cons] at h
    exact Or.inr (by rw [h.1]; rfl)

/-- A strict suffix of `c :: z` is a suffix of `z`. -/
lemma suf_of_strict {q z : Chars} {c : Char}
    (h : q <:+ c :: z) (hlen : q.length < (c :: z).length) : q <:+ z := by
  rcases List.suffix_cons_iff.mp h with h | h
  · subst h; exact absurd hlen (lt_irrefl _)
  · exact h

/-! ## Behavior of the substitution passes -/

lemma replOpenF_nil (lit : Chars) (fuel : Nat) : replOpenF lit fuel [] = [] := by
  cases fuel <;> rfl

lemma replLitF_nil (lit : Chars) (fuel : Nat) : replLitF lit fuel [] = [] := by
  cases fuel <;> rfl

/-- A pass over text that does not contain the literal is the identity. -/
lemma replOpenF_id {lit : Chars} :
    ∀ (fuel : Nat) {s : Chars}, ¬ lit <:+: s → replOpenF lit fuel s = s := by
  intro fuel
  induction fuel with
  | zero => intro s _; rfl
  | succ f ih =>
    intro s h
    match s with
    | [] => rfl
    | c :: rest =>
      have hnp : ¬ (lit.isPrefixOf (c :: rest) = true) := by
        intro hb
        exact h (infixOfPre (isPre_eq.mp hb))
      have hrest : ¬ lit <:+: rest := by
        intro hc
        exact h (List.infix_cons_iff.mpr (Or.inr hc))
      unfold replOpenF
      rw [if_neg hnp, ih hrest]

/-- A literal-removal pass over text that does not contain the literal is the
identity. -/
lemma replLitF_id {lit : Chars} :
    ∀ (fuel : Nat) {s : Chars}, ¬ lit <:+: s → replLitF lit fuel s = s := by
  intro fuel
  induction fuel with
  | zero => intro s _; rfl
  | succ f ih =>
    intro s h
    match s with
    | [] => rfl
    | c :: rest =>
      have hnp : ¬ (lit.isPrefixOf (c :: rest) = true) := by
        intro hb
        exact h (infixOfPre (isPre_eq.mp hb))
      have hrest : ¬ lit <:+: rest := by
        intro hc
        exact h (List.infix_cons_iff.mpr (Or.inr hc))
      unfold replLitF
      rw [if_neg hnp, ih hrest]

lemma replOpen_id {lit s : Chars} (h : ¬ lit <:+: s) : replOpen lit s = s :=
  replOpenF_id _ h

lemma replLit_id {lit s : Chars} (h : ¬ lit <:+: s) : replLit lit s = s :=
  replLitF_id _ h

/-- The lazy tail `.*?[^\>]\>` over a clean run `u` followed by `'>'` matches
through that `'>'`. -/
lemma findLazyEnd_clean :
    ∀ {u : Chars} (rest : Chars), u ≠ [] →
      (∀ c ∈ u, c ≠ '>' ∧ isLineTerm c = false) →
      findLazyEnd (u ++ '>' :: rest) = some (u.length - 1) := by
  intro u
  induction u with
  | nil => intro rest h _; exact absurd rfl h
  | cons a u' ih =>
    intro rest _ hc
    have ha := hc a (List.mem_cons_self a _)
    match u' with
    | [] =>
      show findLazyEnd (a :: '>' :: rest) = some 0
      unfold findLazyEnd
      rw [if_pos ⟨ha.1, rfl⟩]
    | b :: u'' =>
      have hb := hc b (List.mem_cons_of_mem a (List.mem_cons_self b _))
      have hrec := ih rest (List.cons_ne_nil b u'')
        (fun c hm => hc c (List.mem_cons_of_mem a hm))
      show findLazyEnd (a :: b :: (u'' ++ '>' :: rest)) = some ((a :: b :: u'').length - 1)
      unfold findLazyEnd
      rw [if_neg (fun h : a ≠ '>' ∧ b = '>' => hb.1 h.2), if_neg (by simp [ha.2])]
      simp only [List.cons_append] at hrec
      rw [hrec]
      simp [Nat.succ_sub_one]

/-- A pass whose input starts with a full match `lit ++ u ++ '>'` removes it
and continues on the remainder. -/
lemma replOpenF_consume {lit u r : Chars} {fuel : Nat}
    (hlit : lit ≠ []) (hu : u ≠ [])
    (hc : ∀ c ∈ u, c ≠ '>' ∧ isLineTerm c = false) :
    replOpenF lit (fuel + 1) (lit ++ u ++ '>' :: r) = replOpenF lit fuel r := by
  match lit, hlit with
  | l0 :: lt, _ =>
    rw [List.append_assoc, List.cons_append]
    conv_lhs => unfold replOpenF
    rw [if_pos (isPre_eq.mpr (by rw [← List.cons_append]; exact List.prefix_append _ _))]
    have hdrop : (l0 :: (lt ++ (u ++ '>' :: r))).drop (l0 :: lt).length = u ++ '>' :: r := by
      rw [← List.cons_append]
      simp
    rw [hdrop, findLazyEnd_clean _ hu hc]
    simp only []
    have hlen : u.length - 1 + 2 = u.length + 1 := by
      match u, hu with
      | a :: u', _ => simp
    rw [hlen]
    have : (u ++ '>' :: r).drop (u.length + 1) = r := by
      rw [List.drop_append_eq_append_drop]
      simp
    rw [this]

/-- A literal-removal pass over `T ++ lit` (with the literal absent from `T`
and the literal `"</mark>"`-like: no proper tail of it is a prefix of it)
erases the final literal and keeps `T`. -/
lemma replLitF_close :
    ∀ (T : Chars) (fuel : Nat), T.length + 1 ≤ fuel →
      ¬ litClose <:+: T →
      replLitF litClose fuel (T ++ litClose) = T := by
  intro T
  induction T with
  | nil =>
    intro fuel hf _
    match fuel, hf with
    | f + 1, _ =>
      rw [List.nil_append]
      show replLitF litClose (f + 1) ('<' :: "/mark>".toList) = []
      conv_lhs => unfold replLitF
      rw [if_pos (by decide)]
      rw [show List.drop (List.length litClose) ('<' :: "/mark>".toList) = ([] : Chars) by decide]
      exact replLitF_nil _ _
  | cons c T' ih =>
    intro fuel hf hinf
    match fuel, hf with
    | f + 1, hf =>
      have hnp : ¬ (litClose.isPrefixOf (c :: T' ++ litClose) = true) := by
        intro hb
        have h := isPre_eq.mp hb
        rw [List.cons_append] at h
        rw [← List.cons_append] at h
        rcases pre_append_cases h with h1 | ⟨h2, h3⟩
        · exact hinf (infixOfPre h1)
        · by_cases hlen : litClose.length ≤ (c :: T').length
          · have : c :: T' = litClose := List.IsPrefix.eq_of_length_le h2 hlen
            exact hinf (this ▸ List.infix_rfl)
          · have hlt : (c :: T').length < litClose.length := Nat.lt_of_not_le hlen
            have hdec : ∀ j, j < litClose.length → 0 < j →
                ¬ (litClose.drop j <+: litClose) := by decide
            exact hdec (c :: T').length hlt (Nat.succ_pos _) h3
      have hrest : ¬ litClose <:+: T' := by
        intro h
        exact hinf (List.infix_cons_iff.mpr (Or.inr h))
      rw [List.cons_append]
      conv_lhs => unfold replLitF
      rw [if_neg (by rw [List.cons_append] at hnp; exact hnp)]
      rw [ih f (Nat.succ_le_succ_iff.mp hf) hrest]

/-! ## Lemmas about `splitNl` and `lastSeg` -/

lemma splitNl_ne (s : Chars) : splitNl s ≠ [] := by
  induction s with
  | nil => simp [splitNl]
  | cons c r ih =>
    by_cases hc : c = '\n'
    · simp [splitNl, hc]
    · simp only [splitNl, if_neg hc]
      cases hsp : splitNl r with
      | nil => exact absurd hsp ih
      | cons a as => simp

lemma splitNl_len (s : Chars) : (splitNl s).length = s.count '\n' + 1 := by
  induction s with
  | nil => simp [splitNl]
  | cons c r ih =>
    by_cases hc : c = '\n'
    · simp [splitNl, hc, List.count_cons, ih]
    · simp only [splitNl, if_neg hc]
      cases hsp : splitNl r with
      | nil => exact absurd hsp (splitNl_ne r)
      | cons a as =>
        rw [hsp] at ih
        simp only [List.length_cons] at ih ⊢
        rw [List.count_cons]
        simpa [hc] using ih

lemma contains_iff_memc {s : Chars} {c : Char} : s.contains c ↔ c ∈ s :=
  List.elem_iff

lemma splitNl_no_nl {s : Chars} (h : ¬ s.contains '\n') : splitNl s = [s] := by
  induction s with
  | nil => rfl
  | cons c r ih =>
    rw [contains_iff_memc] at h
    simp only [List.mem_cons, not_or] at h
    have hc : c ≠ '\n' := fun hh => h.1 hh.symm
    simp only [splitNl, if_neg hc]
    rw [ih (by rw [contains_iff_memc]; exact h.2)]

lemma lastSeg_no_nl {s : Chars} (h : ¬ s.contains '\n') : lastSeg s = s := by
  induction s with
  | nil => rfl
  | cons c r ih =>
    have h' := h
    rw [contains_iff_memc] at h'
    simp only [List.mem_cons, not_or] at h'
    have hc : c ≠ '\n' := fun hh => h'.1 hh.symm
    have hr : ¬ r.contains '\n' := by rw [contains_iff_memc]; exact h'.2
    simp only [lastSeg]
    rw [if_neg hr, if_neg hc, ih hr]

lemma splitNl_last (s : Chars) : (splitNl s).getLast? = some (lastSeg s) := by
  induction s with
  | nil => rfl
  | cons c r ih =>
    by_cases hc : c = '\n'
    · subst hc
      simp only [splitNl, eq_self_iff_true, if_true]
      cases hsp : splitNl r with
      | nil => exact absurd hsp (splitNl_ne r)
      | cons a as =>
        rw [List.getLast?_cons_cons]
        rw [hsp] at ih
        simp only [lastSeg]
        by_cases hr : r.contains '\n'
        · rw [if_pos hr]; exact ih
        · rw [if_neg hr, if_true]
          rw [splitNl_no_nl hr] at hsp
          injection hsp with h1 h2
          subst h1; subst h2
          rfl
    · simp only [splitNl, if_neg hc]
      cases hsp : splitNl r with
      | nil => exact absurd hsp (splitNl_ne r)
      | cons a as =>
        rw [hsp] at ih
        cases as with
        | nil =>
          have hr : ¬ r.contains '\n' := by
            have hl := splitNl_len r
            rw [hsp] at hl
            simp only [List.length_cons, List.length_nil] at hl
            have hcz : r.count '\n' = 0 := by omega
            rw [contains_iff_memc]
            exact List.count_eq_zero.mp hcz
          rw [splitNl_no_nl hr] at hsp
          injection hsp with h1 h2
          subst h1
          simp only [lastSeg, if_neg hr, if_neg hc]
          rw [lastSeg_no_nl hr]
          rfl
        | cons b bs =>
          have hr : r.contains '\n' := by
            have hl := splitNl_len r
            rw [hsp] at hl
            simp only [List.length_cons] at hl
            rw [contains_iff_memc]
            rw [← List.count_pos_iff]
            omega
          show ((c :: a) :: b :: bs).getLast? = some (lastSeg (c :: r))
          rw [List.getLast?_cons_cons]
          have hls : lastSeg (c :: r) = lastSeg r := by
            simp only [lastSeg, hr, if_true]
          rw [hls, ← ih]
          exact List.getLast?_cons_cons.symm

/-! ## Round trip of apply followed by erase -/

/-- A character that cannot disturb the tag-matching of the three
substitutions when interpolated into a tag: not an angle bracket and not a
line terminator. -/
def cleanChar (c : Char) : Bool :=
  !(c == '<') && !(c == '>') && !(isLineTerm c)

/-- Text free of mark-tag substrings: no occurrence of `"<mark"` and no
occurrence of `"</mark>"`. -/
def cleanText (T : Chars) : Prop :=
  ¬ litMark <:+: T ∧ ¬ litClose <:+: T

instance (T : Chars) : Decidable (cleanText T) := by
  unfold cleanText; infer_instance

/-- The part of the inline-style tag between the literal head and the final
`'>'`. -/
def styleMid (color : Chars) : Chars :=
  "=\"background: ".toList ++ color ++ [';', '"']

/-- The part of the css-class tag between the literal head and the final
`'>'`. -/
def classMid (kl : Chars) : Chars :=
  "=\"hltr-".toList ++ kl ++ ['"']

lemma styleTag_decomp (c : Chars) :
    styleTag c = litStyle ++ styleMid c ++ ['>'] := by
  show "<mark style=\"background: ".toList ++ c ++ ";\">".toList = _
  rw [show "<mark style=\"background: ".toList
        = litStyle ++ "=\"background: ".toList from rfl,
     show ";\">".toList = ([';', '"'] : Chars) ++ ['>'] from rfl]
  simp [styleMid, List.append_assoc]

lemma classTag_decomp (key : Chars) :
    classTag key = litClass ++ classMid (key.map Char.toLower) ++ ['>'] := by
  show "<mark class=\"hltr-".toList ++ key.map Char.toLower ++ "\">".toList = _
  rw [show "<mark class=\"hltr-".toList = litClass ++ "=\"hltr-".toList from rfl,
     show "\">".toList = (['"'] : Chars) ++ ['>'] from rfl]
  simp [classMid, List.append_assoc]

lemma classTag_cons (key : Chars) :
    classTag key = '<' :: ("mark class=\"hltr-".toList ++ key.map Char.toLower ++ "\">".toList) := by
  show "<mark class=\"hltr-".toList ++ key.map Char.toLower ++ "\">".toList = _
  rw [show "<mark class=\"hltr-".toList
        = ('<' : Char) :: "mark class=\"hltr-".toList from rfl]
  simp

lemma styleMid_clean {c : Chars} (hc : ∀ x ∈ c, cleanChar x = true) :
    ∀ x ∈ styleMid c, x ≠ '>' ∧ isLineTerm x = false := by
  intro x hx
  simp only [styleMid, List.append_assoc, List.mem_append] at hx
  rcases hx with hx | hx | hx
  · revert hx; revert x; decide
  · have := hc x hx
    simp only [cleanChar, Bool.and_eq_true, Bool.not_eq_true', beq_eq_false_iff_ne] at this
    exact ⟨this.1.2, this.2⟩
  · revert hx; revert x; decide

lemma classMid_clean {kl : Chars} (hk : ∀ x ∈ kl, cleanChar x = true) :
    ∀ x ∈ classMid kl, x ≠ '>' ∧ isLineTerm x = false := by
  intro x hx
  simp only [classMid, List.append_assoc, List.mem_append] at hx
  rcases hx with hx | hx | hx
  · revert hx; revert x; decide
  · have := hk x hx
    simp only [cleanChar, Bool.and_eq_true, Bool.not_eq_true', beq_eq_false_iff_ne] at this
    exact ⟨this.1.2, this.2⟩
  · revert hx; revert x; decide

lemma classMid_no_lt {kl : Chars} (hk : ∀ x ∈ kl, cleanChar x = true) :
    ∀ x ∈ classMid kl ++ ['>'], x ≠ '<' := by
  intro x hx
  simp only [classMid, List.append_assoc, List.mem_append] at hx
  rcases hx with hx | hx | hx | hx
  · revert hx; revert x; decide
  · have := hk x hx
    simp only [cleanChar, Bool.and_eq_true, Bool.not_eq_true', beq_eq_false_iff_ne] at this
    exact this.1.1
  · revert hx; revert x; decide
  · revert hx; revert x; decide

/-- Removing a full match and then scanning a clean remainder. -/
lemma replOpen_consume_id {lit u r : Chars}
    (hlit : lit ≠ []) (hu : u ≠ [])
    (hc : ∀ c ∈ u, c ≠ '>' ∧ isLineTerm c = false)
    (hr : ¬ lit <:+: r) :
    replOpen lit (lit ++ u ++ '>' :: r) = r := by
  unfold replOpen
  have hl : (lit ++ u ++ '>' :: r).length = (lit.length + u.length + r.length) + 1 := by
    simp [List.length_append]
    omega
  rw [hl, replOpenF_consume hlit hu hc, replOpenF_id _ hr]

/-- Neither opening-tag literal occurs in clean text followed by the closing
tag. -/
lemma no_open_in_TS {T : Chars} (hT : ¬ litMark <:+: T) :
    ¬ litStyle <:+: T ++ litClose ∧ ¬ litClass <:+: T ++ litClose := by
  constructor
  · exact no_inf_append (by decide)
      (by decide : ∀ k, k < litStyle.length → 0 < k → ¬ (litStyle.drop k <+: litClose))
      (no_inf_of_pre (by decide : litMark <+: litStyle) hT)
  · exact no_inf_append (by decide)
      (by decide : ∀ k, k < litClass.length → 0 < k → ¬ (litClass.drop k <+: litClose))
      (no_inf_of_pre (by decide : litMark <+: litClass) hT)

/-- The inline-style literal does not occur in a css-class tag whose
interpolated key is clean. -/
lemma no_style_in_classTag {kl : Chars} (hk : ∀ x ∈ kl, cleanChar x = true) :
    ¬ litStyle <:+: litClass ++ (classMid kl ++ ['>']) := by
  have hY : ¬ litStyle <:+: classMid kl ++ ['>'] := by
    rw [show litStyle = ('<' : Char) :: "mark style".toList from rfl]
    exact no_inf_of_head (classMid_no_lt hk)
  have hhead : ∀ k, k < litStyle.length → 0 < k →
      litStyle.drop k ≠ [] ∧ (litStyle.drop k).head? ≠ some '=' := by decide
  refine no_inf_append hY ?_ (by decide)
  intro k hk1 hk2 hp
  have hmid : classMid kl ++ ['>'] = '=' :: ("\"hltr-".toList ++ kl ++ ['"'] ++ ['>']) := by
    show ("=\"hltr-".toList ++ kl ++ ['"']) ++ ['>'] = _
    rw [show "=\"hltr-".toList = ('=' : Char) :: "\"hltr-".toList from rfl]
    simp
  rw [hmid] at hp
  rcases pre_head hp with h | h
  · exact (hhead k hk1 hk2).1 h
  · exact (hhead k hk1 hk2).2 h

/-- The inline-style literal does not occur anywhere in
`classTag key ++ T ++ closeTag` for clean `key` and clean `T`. -/
lemma no_style_in_class_full {key T : Chars}
    (hk : ∀ x ∈ key.map Char.toLower, cleanChar x = true)
    (hT : ¬ litMark <:+: T) :
    ¬ litStyle <:+: classTag key ++ (T ++ litClose) := by
  have hX : ¬ litStyle <:+: classTag key := by
    rw [classTag_decomp, List.append_assoc]
    exact no_style_in_classTag hk
  have hY : ¬ litStyle <:+: T ++ litClose := (no_open_in_TS hT).1
  refine no_inf_append_left hX hY ?_
  intro k hk1 hk2 hsuf
  have hmemk : '<' ∈ litStyle.take k := by
    have hd : ∀ j, j < litStyle.length → 0 < j → '<' ∈ litStyle.take j := by decide
    exact hd k hk1 hk2
  have hstylen : litStyle.length = 11 := by decide
  have htklen : (litStyle.take k).length = k := by
    rw [List.length_take]
    omega
  rw [classTag_cons] at hsuf
  have hsuf' := suf_of_strict hsuf (by
    rw [htklen]
    have h17 : ("mark class=\"hltr-".toList).length = 17 := by decide
    have h2 : ("\">".toList).length = 2 := by decide
    simp only [List.length_cons, List.length_append, h17, h2]
    omega)
  have hmem2 : '<' ∈ "mark class=\"hltr-".toList ++ key.map Char.toLower ++ "\">".toList :=
    hsuf'.mem hmemk
  simp only [List.append_assoc, List.mem_append] at hmem2
  rcases hmem2 with h | h | h
  · revert h; decide
  · have := hk '<' h
    simp [cleanChar] at this
  · revert h; decide

/-- Round trip, inline-style mode: stripping `styleTag c ++ T ++ closeTag`
restores `T` whenever the color and the text are clean. -/
lemma roundTripStyle {c T : Chars}
    (hc : ∀ x ∈ c, cleanChar x = true) (hT : cleanText T) :
    stripMarks (styleTag c ++ T ++ closeTag) = T := by
  have hTS := no_open_in_TS hT.1
  have step1 : replOpen litStyle (styleTag c ++ T ++ closeTag) = T ++ litClose := by
    rw [styleTag_decomp, show closeTag = litClose from rfl]
    have hshape : (litStyle ++ styleMid c ++ ['>']) ++ T ++ litClose
        = litStyle ++ styleMid c ++ '>' :: (T ++ litClose) := by
      simp [List.append_assoc]
    rw [hshape]
    exact replOpen_consume_id (by decide) (by simp [styleMid]) (styleMid_clean hc) hTS.1
  have step2 : replOpen litClass (T ++ litClose) = T ++ litClose :=
    replOpen_id hTS.2
  have step3 : replLit litClose (T ++ litClose) = T := by
    unfold replLit
    have : (T ++ litClose).length = T.length + 7 := by simp [litClose]
    rw [this]
    exact replLitF_close T (T.length + 7) (by omega) hT.2
  rw [stripMarks, step1, step2, step3]

/-- Round trip, css-class mode: stripping `classTag key ++ T ++ closeTag`
restores `T` whenever the lowercased key and the text are clean. -/
lemma roundTripClass {key T : Chars}
    (hk : ∀ x ∈ key.map Char.toLower, cleanChar x = true) (hT : cleanText T) :
    stripMarks (classTag key ++ T ++ closeTag) = T := by
  have hTS := no_open_in_TS hT.1
  have step1 : replOpen litStyle (classTag key ++ T ++ closeTag) = classTag key ++ T ++ closeTag := by
    apply replOpen_id
    rw [show closeTag = litClose from rfl, List.append_assoc]
    exact no_style_in_class_full hk hT.1
  have step2 : replOpen litClass (classTag key ++ T ++ closeTag) = T ++ litClose := by
    rw [classTag_decomp, show closeTag = litClose from rfl]
    have hshape : (litClass ++ classMid (key.map Char.toLower) ++ ['>']) ++ T ++ litClose
        = litClass ++ classMid (key.map Char.toLower) ++ '>' :: (T ++ litClose) := by
      simp [List.append_assoc]
    rw [hshape]
    exact replOpen_consume_id (by decide) (by simp [classMid]) (classMid_clean hk) hTS.2
  have step3 : replLit litClose (T ++ litClose) = T := by
    unfold replLit
    have : (T ++ litClose).length = T.length + 7 := by simp [litClose]
    rw [this]
    exact replLitF_close T (T.length + 7) (by omega) hT.2
  rw [stripMarks, step1, step2, step3]

/-! ## Buffer splice lemmas -/

lemma splitNl_append_nl {x : Chars} (r : Chars) (h : ¬ x.contains '\n') :
    splitNl (x ++ '\n' :: r) = x :: splitNl r := by
  induction x with
  | nil => simp [splitNl]
  | cons c x' ih =>
    rw [contains_iff_memc] at h
    simp only [List.mem_cons, not_or] at h
    have hc : c ≠ '\n' := fun hh => h.1 hh.symm
    have hx' : ¬ x'.contains '\n' := by rw [contains_iff_memc]; exact h.2
    simp only [List.cons_append, splitNl, if_neg hc, List.append_eq]
    rw [ih hx']

lemma splitNl_joinNl : ∀ {parts : List Chars}, parts ≠ [] →
    (∀ p ∈ parts, ¬ p.contains '\n') → splitNl (joinNl parts) = parts := by
  intro parts
  induction parts with
  | nil => intro h _; exact absurd rfl h
  | cons x xs ih =>
    intro _ hall
    match xs with
    | [] =>
      show splitNl (joinNl [x]) = [x]
      exact splitNl_no_nl (hall x (List.mem_cons_self x _))
    | y :: ys =>
      show splitNl (x ++ '\n' :: joinNl (y :: ys)) = x :: (y :: ys)
      rw [splitNl_append_nl _ (hall x (List.mem_cons_self x _))]
      rw [ih (List.cons_ne_nil y ys) (fun p hp => hall p (List.mem_cons_of_mem x hp))]

lemma attachLast_append_last (xs : List Chars) (x tail : Chars) :
    attachLast (xs ++ [x]) tail = xs ++ [x ++ tail] := by
  induction xs with
  | nil => rfl
  | cons a as ih =>
    match as with
    | [] => rfl
    | b :: bs =>
      show a :: attachLast ((b :: bs) ++ [x]) tail = a :: ((b :: bs) ++ [x ++ tail])
      rw [ih]

lemma attachLast_length (xs : List Chars) (tail : Chars) (h : xs ≠ []) :
    (attachLast xs tail).length = xs.length := by
  induction xs with
  | nil => exact absurd rfl h
  | cons a as ih =>
    match as with
    | [] => rfl
    | b :: bs =>
      show (a :: attachLast (b :: bs) tail).length = _
      simp only [List.length_cons]
      rw [ih (List.cons_ne_nil b bs)]
      simp

lemma attachLast_getLast (xs : List Chars) (tail : Chars) (h : xs ≠ []) :
    ∃ p, (attachLast xs tail).getLast? = some (p ++ tail) := by
  induction xs with
  | nil => exact absurd rfl h
  | cons a as ih =>
    match as with
    | [] => exact ⟨a, rfl⟩
    | b :: bs =>
      obtain ⟨p, hp⟩ := ih (List.cons_ne_nil b bs)
      refine ⟨p, ?_⟩
      show (a :: attachLast (b :: bs) tail).getLast? = _
      rw [← hp]
      have : attachLast (b :: bs) tail ≠ [] := by
        match bs with
        | [] => simp [attachLast]
        | c :: cs => simp [attachLast]
      match hat : attachLast (b :: bs) tail, this with
      | q :: qs, _ => rw [List.getLast?_cons_cons]

lemma take_cons_drop {α : Type} (b : List α) (i : Nat) (d : α) (h : i < b.length) :
    b.take i ++ b.getD i d :: b.drop (i + 1) = b := by
  induction b generalizing i with
  | nil => simp at h
  | cons x xs ih =>
    cases i with
    | zero => simp [List.getD]
    | succ j =>
      simp only [List.take_succ_cons, List.drop_succ_cons, List.cons_append, List.getD_cons_succ]
      rw [ih j (by simpa using h)]

lemma getD_get? {α : Type} (b : List α) (i : Nat) (d : α) :
    (b.get? i).getD d = b.getD i d := rfl

lemma seg_identity {b : List Chars} {i j : Nat} (hij : i < j) (hj : j < b.length) :
    b.take i ++ (b.getD i [] :: ((b.drop (i + 1)).take (j - i - 1) ++ [b.getD j []])) ++ b.drop (j + 1) = b := by
  have hlen : (b.drop (i + 1)).length = b.length - i - 1 := by
    rw [List.length_drop]
    omega
  have hidx : j - i - 1 < (b.drop (i + 1)).length := by omega
  have hget : (b.drop (i + 1)).getD (j - i - 1) [] = b.getD j [] := by
    have harith : i + 1 + (j - i - 1) = j := by omega
    rw [← getD_get?, ← getD_get?, List.get?_drop, harith]
  have hdrop : (b.drop (i + 1)).drop (j - i - 1 + 1) = b.drop (j + 1) := by
    rw [List.drop_drop]
    congr 1
    omega
  have hmain := take_cons_drop (b.drop (i + 1)) (j - i - 1) [] hidx
  rw [hget, hdrop] at hmain
  calc b.take i ++ (b.getD i [] :: ((b.drop (i + 1)).take (j - i - 1) ++ [b.getD j []])) ++ b.drop (j + 1)
      = b.take i ++ b.getD i [] :: ((b.drop (i + 1)).take (j - i - 1) ++ b.getD j [] :: b.drop (j + 1)) := by
        simp [List.append_assoc]
    _ = b.take i ++ b.getD i [] :: b.drop (i + 1) := by rw [hmain]
    _ = b := take_cons_drop b i [] (lt_trans hij hj)

lemma glueLines_cons_append (hp tp m x : Chars) (xs : List Chars) :
    glueLines hp tp (m :: (xs ++ [x])) = (hp ++ m) :: (xs ++ [x ++ tp]) := by
  match xs with
  | [] => rfl
  | y :: ys =>
    show (hp ++ m) :: attachLast ((y :: ys) ++ [x]) tp = _
    rw [attachLast_append_last]

lemma glueLines_len (hp tp : Chars) {parts : List Chars} (h : parts ≠ []) :
    (glueLines hp tp parts).length = parts.length := by
  match parts with
  | [m] => rfl
  | m :: n :: ms =>
    show ((hp ++ m) :: attachLast (n :: ms) tp).length = _
    simp only [List.length_cons]
    rw [attachLast_length _ _ (List.cons_ne_nil n ms)]
    simp

lemma glueLines_head (hp tp : Chars) (parts : List Chars) :
    ∃ r, (glueLines hp tp parts).head? = some (hp ++ r) := by
  match parts with
  | [] => exact ⟨tp, rfl⟩
  | [m] => exact ⟨m ++ tp, by simp [glueLines]⟩
  | m :: n :: ms => exact ⟨m, rfl⟩

lemma glueLines_last (hp tp : Chars) (parts : List Chars) :
    ∃ p, (glueLines hp tp parts).getLast? = some (p ++ tp) := by
  match parts with
  | [] => exact ⟨hp, rfl⟩
  | [m] => exact ⟨hp ++ m, by simp [glueLines]⟩
  | m :: n :: ms =>
    obtain ⟨p, hp2⟩ := attachLast_getLast (n :: ms) tp (List.cons_ne_nil n ms)
    refine ⟨p, ?_⟩
    show ((hp ++ m) :: attachLast (n :: ms) tp).getLast? = _
    rw [← hp2]
    have hne : attachLast (n :: ms) tp ≠ [] := by
      match ms with
      | [] => simp [attachLast]
      | c :: cs => simp [attachLast]
    match hat : attachLast (n :: ms) tp, hne with
    | q :: qs, _ => rw [List.getLast?_cons_cons]

/-- An element read through `get?` with a default is a member for in-bounds
indices. -/
lemma getD_mem_of_lt {b : Buffer} {i : Nat} (h : i < b.length) :
    (b.get? i).getD [] ∈ b := by
  cases hg : b.get? i with
  | none => exact absurd (List.get?_eq_none.mp hg) (Nat.not_le_of_lt h)
  | some l => simpa using List.get?_mem hg

/-- Splicing back exactly the text read from a range leaves the buffer
unchanged. -/
lemma splice_identity {b : Buffer} {f t : Pos}
    (wf : ∀ l ∈ b, ¬ l.contains '\n')
    (hft : f.line ≤ t.line) (ht : t.line < b.length)
    (hcc : f.line = t.line → f.ch ≤ t.ch) :
    replaceRangeB b f t (getRangeB b f t) = b := by
  by_cases heq : f.line = t.line
  · have hfl : f.line < b.length := heq ▸ ht
    have hnlF : ¬ ((b.get? f.line).getD []).contains '\n' := wf _ (getD_mem_of_lt hfl)
    have hs : ¬ ((((b.get? f.line).getD []).drop f.ch).take (t.ch - f.ch)).contains '\n' := by
      rw [contains_iff_memc]
      intro hm
      rw [contains_iff_memc] at hnlF
      exact hnlF (List.mem_of_mem_drop (List.mem_of_mem_take hm))
    rw [getRangeB, replaceRangeB]
    simp only [if_pos heq]
    rw [splitNl_no_nl hs]
    have hmid : ((b.get? f.line).getD []).take f.ch ++
        ((((b.get? f.line).getD []).drop f.ch).take (t.ch - f.ch) ++
          ((b.get? t.line).getD []).drop t.ch)
        = (b.get? f.line).getD [] := by
      rw [← heq]
      have hdd : ((b.get? f.line).getD []).drop t.ch
          = (((b.get? f.line).getD []).drop f.ch).drop (t.ch - f.ch) := by
        rw [List.drop_drop]
        congr 1
        have := hcc heq
        omega
      rw [hdd, List.take_append_drop, List.take_append_drop]
    show b.take f.line ++ [((b.get? f.line).getD []).take f.ch ++
        (((b.get? f.line).getD []).drop f.ch).take (t.ch - f.ch) ++
        ((b.get? t.line).getD []).drop t.ch] ++ b.drop (t.line + 1) = b
    rw [List.append_assoc (((b.get? f.line).getD []).take f.ch), hmid, ← heq]
    have := take_cons_drop b f.line [] hfl
    rw [← getD_get?] at this
    simpa using this
  · have hlt : f.line < t.line := Nat.lt_of_le_of_ne hft heq
    have hfl : f.line < b.length := lt_trans hlt ht
    have hnlF : ¬ (((b.get? f.line).getD []).drop f.ch).contains '\n' := by
      rw [contains_iff_memc]
      intro hm
      have := wf _ (getD_mem_of_lt hfl)
      rw [contains_iff_memc] at this
      exact this (List.mem_of_mem_drop hm)
    have hnlT : ¬ (((b.get? t.line).getD []).take t.ch).contains '\n' := by
      rw [contains_iff_memc]
      intro hm
      have := wf _ (getD_mem_of_lt ht)
      rw [contains_iff_memc] at this
      exact this (List.mem_of_mem_take hm)
    have hnlMid : ∀ p ∈ (b.drop (f.line + 1)).take (t.line - f.line - 1), ¬ p.contains '\n' :=
      fun p hp => wf p (List.mem_of_mem_drop (List.mem_of_mem_take hp))
    rw [getRangeB, replaceRangeB]
    simp only [if_neg heq]
    rw [splitNl_joinNl (List.cons_ne_nil _ _) ?_]
    · rw [glueLines_cons_append, List.take_append_drop, List.take_append_drop]
      exact seg_identity hlt ht
    · intro p hp
      rcases List.mem_cons.mp hp with rfl | hp
      · exact hnlF
      · rcases List.mem_append.mp hp with hp | hp
        · exact hnlMid p hp
        · rw [List.mem_singleton.mp hp]
          exact hnlT

/-! ## Frame lemmas for `replaceRangeB` -/

lemma glueLines_ne (hp tp : Chars) (parts : List Chars) :
    glueLines hp tp parts ≠ [] := by
  match parts with
  | [] => simp [glueLines]
  | [m] => simp [glueLines]
  | m :: n :: ms => simp [glueLines]

lemma replaceRangeB_take {b : Buffer} {f t : Pos} {s : Chars}
    (h : f.line ≤ b.length) :
    (replaceRangeB b f t s).take f.line = b.take f.line := by
  rw [replaceRangeB]
  rw [List.append_assoc, List.take_append_eq_append_take]
  have hlen : (b.take f.line).length = f.line := by
    rw [List.length_take]
    omega
  rw [hlen, List.take_take, Nat.sub_self, List.take_zero, List.append_nil, min_self]

lemma replaceRangeB_drop {b : Buffer} {f t : Pos} {s : Chars}
    (h : f.line ≤ b.length) :
    (replaceRangeB b f t s).drop (f.line + (splitNl s).length) = b.drop (t.line + 1) := by
  rw [replaceRangeB]
  have hlen : (b.take f.line).length = f.line := by
    rw [List.length_take]
    omega
  have hglen : (glueLines (((b.get? f.line).getD []).take f.ch)
      (((b.get? t.line).getD []).drop t.ch) (splitNl s)).length = (splitNl s).length :=
    glueLines_len _ _ (splitNl_ne s)
  have hcomb : (b.take f.line ++ glueLines (((b.get? f.line).getD []).take f.ch)
      (((b.get? t.line).getD []).drop t.ch) (splitNl s)).length
      = f.line + (splitNl s).length := by
    rw [List.length_append, hlen, hglen]
  rw [← hcomb]
  exact List.drop_left _ _

lemma replaceRangeB_head {b : Buffer} {f t : Pos} {s : Chars}
    (h : f.line ≤ b.length) :
    ∃ rest, (replaceRangeB b f t s).get? f.line
      = some (((b.get? f.line).getD []).take f.ch ++ rest) := by
  rw [replaceRangeB]
  have hlen : (b.take f.line).length = f.line := by
    rw [List.length_take]
    omega
  obtain ⟨r, hr⟩ := glueLines_head (((b.get? f.line).getD []).take f.ch)
    (((b.get? t.line).getD []).drop t.ch) (splitNl s)
  refine ⟨r, ?_⟩
  rw [List.append_assoc]
  rw [List.get?_eq_getElem?, List.getElem?_append_right (by omega), hlen, Nat.sub_self]
  have hne := glueLines_ne (((b.get? f.line).getD []).take f.ch)
    (((b.get? t.line).getD []).drop t.ch) (splitNl s)
  rw [List.getElem?_append_left (by
    cases hg : glueLines (((b.get? f.line).getD []).take f.ch)
      (((b.get? t.line).getD []).drop t.ch) (splitNl s) with
    | nil => exact absurd hg hne
    | cons q qs => simp [hg])]
  rw [← List.get?_eq_getElem?, List.get?_zero]
  exact hr

lemma replaceRangeB_last {b : Buffer} {f t : Pos} {s : Chars}
    (h : f.line ≤ b.length) :
    ∃ p, (replaceRangeB b f t s).get? (f.line + (splitNl s).length - 1)
      = some (p ++ ((b.get? t.line).getD []).drop t.ch) := by
  rw [replaceRangeB]
  have hlen : (b.take f.line).length = f.line := by
    rw [List.length_take]
    omega
  have hglen : (glueLines (((b.get? f.line).getD []).take f.ch)
      (((b.get? t.line).getD []).drop t.ch) (splitNl s)).length = (splitNl s).length :=
    glueLines_len _ _ (splitNl_ne s)
  have hsne : (splitNl s).length ≥ 1 := by
    cases hsp : splitNl s with
    | nil => exact absurd hsp (splitNl_ne s)
    | cons a as => simp
  obtain ⟨p, hp⟩ := glueLines_last (((b.get? f.line).getD []).take f.ch)
    (((b.get? t.line).getD []).drop t.ch) (splitNl s)
  refine ⟨p, ?_⟩
  rw [List.append_assoc]
  rw [List.get?_eq_getElem?, List.getElem?_append_right (by omega), hlen]
  rw [List.getElem?_append_left (by omega)]
  have harr : f.line + (splitNl s).length - 1 - f.line = (splitNl s).length - 1 := by omega
  rw [harr]
  rw [← hglen, ← List.getLast?_eq_getElem?]
  exact hp

/-! ## The mark-region scan -/

/-- The fueled scan agrees, at every fuel and start position, with "first
candidate whose inclusive bracket contains the cursor". -/
lemma findMarkRegionF_spec (lineText : Chars) (ch : Nat) :
    ∀ (fuel searchPos : Nat),
      findMarkRegionF lineText ch fuel searchPos
        = (markCandidatesF lineText fuel searchPos).find?
            (fun p => decide (p.1 ≤ ch ∧ ch ≤ p.2)) := by
  intro fuel
  induction fuel with
  | zero => intro sp; rfl
  | succ f ih =>
    intro sp
    show (match idxFrom litMark lineText sp with
      | none => none
      | some openIdx =>
        match idxFrom litClose lineText openIdx with
        | none => none
        | some closeRaw =>
          let closeIdx := closeRaw + litClose.length
          if openIdx ≤ ch ∧ ch ≤ closeIdx then some (openIdx, closeIdx)
          else findMarkRegionF lineText ch f closeIdx)
      = (match idxFrom litMark lineText sp with
        | none => []
        | some openIdx =>
          match idxFrom litClose lineText openIdx with
          | none => []
          | some closeRaw =>
            (openIdx, closeRaw + litClose.length) ::
              markCandidatesF lineText f (closeRaw + litClose.length)).find?
            (fun p => decide (p.1 ≤ ch ∧ ch ≤ p.2))
    cases h1 : idxFrom litMark lineText sp with
    | none => rfl
    | some o =>
      show (match idxFrom litClose lineText o with
        | none => none
        | some closeRaw =>
          let closeIdx := closeRaw + litClose.length
          if o ≤ ch ∧ ch ≤ closeIdx then some (o, closeIdx)
          else findMarkRegionF lineText ch f closeIdx)
        = (match idxFrom litClose lineText o with
          | none => []
          | some closeRaw =>
            (o, closeRaw + litClose.length) ::
              markCandidatesF lineText f (closeRaw + litClose.length)).find?
            (fun p => decide (p.1 ≤ ch ∧ ch ≤ p.2))
      cases h2 : idxFrom litClose lineText o with
      | none => rfl
      | some cr =>
        show (if o ≤ ch ∧ ch ≤ cr + litClose.length
            then some (o, cr + litClose.length)
            else findMarkRegionF lineText ch f (cr + litClose.length))
          = ((o, cr + litClose.length) :: markCandidatesF lineText f (cr + litClose.length)).find?
              (fun p => decide (p.1 ≤ ch ∧ ch ≤ p.2))
        rw [List.find?_cons]
        by_cases hc : o ≤ ch ∧ ch ≤ cr + litClose.length
        · rw [if_pos hc]
          have hd : decide ((o, cr + litClose.length).1 ≤ ch ∧
              ch ≤ (o, cr + litClose.length).2) = true := by simpa using hc
          rw [hd]
        · rw [if_neg hc]
          have hd : decide ((o, cr + litClose.length).1 ≤ ch ∧
              ch ≤ (o, cr + litClose.length).2) = false := by simpa using hc
          rw [hd]
          exact ih (cr + litClose.length)

/-! ## Word expansion -/

lemma wordStart_le (l : Chars) : ∀ ch, wordStart l ch ≤ ch := by
  intro ch
  induction ch with
  | zero => exact le_refl 0
  | succ n ih =>
    unfold wordStart
    by_cases h : l.get? n = some ' '
    · rw [if_pos h]
    · rw [if_neg h]
      exact Nat.le_succ_of_le ih

lemma wordStart_no_space (l : Chars) :
    ∀ ch i, wordStart l ch ≤ i → i < ch → l.get? i ≠ some ' ' := by
  intro ch
  induction ch with
  | zero => intro i _ h2; exact absurd h2 (Nat.not_lt_zero i)
  | succ n ih =>
    intro i h1 h2
    unfold wordStart at h1
    by_cases h : l.get? n = some ' '
    · rw [if_pos h] at h1
      omega
    · rw [if_neg h] at h1
      rcases Nat.lt_succ_iff_lt_or_eq.mp h2 with h2 | h2
      · exact ih i h1 h2
      · subst h2; exact h

lemma wordStart_boundary (l : Chars) :
    ∀ ch, wordStart l ch = 0 ∨ l.get? (wordStart l ch - 1) = some ' ' := by
  intro ch
  induction ch with
  | zero => exact Or.inl rfl
  | succ n ih =>
    unfold wordStart
    by_cases h : l.get? n = some ' '
    · rw [if_pos h]
      exact Or.inr (by simpa using h)
    · rw [if_neg h]
      exact ih

lemma spanNonSpace_le (s : Chars) : spanNonSpace s ≤ s.length := by
  induction s with
  | nil => exact le_refl 0
  | cons c r ih =>
    unfold spanNonSpace
    by_cases h : c = ' '
    · rw [if_pos h]; exact Nat.zero_le _
    · rw [if_neg h]; simpa using ih

lemma spanNonSpace_no_space (s : Chars) :
    ∀ i, i < spanNonSpace s → s.get? i ≠ some ' ' := by
  induction s with
  | nil => intro i h; simp [spanNonSpace] at h
  | cons c r ih =>
    intro i h
    unfold spanNonSpace at h
    by_cases hc : c = ' '
    · rw [if_pos hc] at h; exact absurd h (Nat.not_lt_zero i)
    · rw [if_neg hc] at h
      cases i with
      | zero => simpa using hc
      | succ j =>
        simp only [List.get?_cons_succ]
        exact ih j (by omega)

lemma spanNonSpace_boundary (s : Chars) :
    spanNonSpace s = s.length ∨ s.get? (spanNonSpace s) = some ' ' := by
  induction s with
  | nil => exact Or.inl rfl
  | cons c r ih =>
    unfold spanNonSpace
    by_cases hc : c = ' '
    · rw [if_pos hc]
      exact Or.inr (by simpa using hc)
    · rw [if_neg hc]
      rcases ih with h | h
      · exact Or.inl (by simp [h])
      · exact Or.inr (by simpa using h)

lemma wordEnd_ge (l : Chars) (ch : Nat) : ch ≤ wordEnd l ch :=
  Nat.le_add_right ch _

lemma wordEnd_le (l : Chars) (ch : Nat) (h : ch ≤ l.length) : wordEnd l ch ≤ l.length := by
  unfold wordEnd
  have := spanNonSpace_le (l.drop ch)
  rw [List.length_drop] at this
  omega

lemma wordEnd_no_space (l : Chars) (ch : Nat) :
    ∀ i, ch ≤ i → i < wordEnd l ch → l.get? i ≠ some ' ' := by
  intro i h1 h2
  unfold wordEnd at h2
  have hd := spanNonSpace_no_space (l.drop ch) (i - ch) (by omega)
  rw [List.get?_drop] at hd
  have : ch + (i - ch) = i := by omega
  rw [this] at hd
  exact hd

lemma wordEnd_boundary (l : Chars) (ch : Nat) :
    wordEnd l ch = ch + (l.drop ch).length ∨ l.get? (wordEnd l ch) = some ' ' := by
  unfold wordEnd
  rcases spanNonSpace_boundary (l.drop ch) with h | h
  · exact Or.inl (by rw [h])
  · rw [List.get?_drop] at h
    exact Or.inr h

/-! ## Claim theorems -/

/-- C1 (counterexample): the round trip is *not* exact for every highlight
template.  The inline-style template whose configured color is the string
`">"` — produced by `commandsMap` from an ordinary configuration entry — wraps
the clean text `"hi"`, but erasing the resulting span yields `;\">hi`, not
`hi`: the lazy tag pattern stops at the `'>'` inside the color. -/
theorem C1_counterexample :
    commandsMapPre ⟨"inline-styles", [("red", ">")]⟩ "red" = styleTag ">".toList
    ∧ cleanText "hi".toList
    ∧ stripMarks (styleTag ">".toList ++ "hi".toList ++ closeTag) ≠ "hi".toList := by
  refine ⟨by decide, by decide, by decide⟩

/-- C1 (amended): for every text `T` containing no `"<mark"` and no
`"</mark>"` substring, and every template whose interpolated value —
the color in inline-style mode, the lowercased key in css-class mode —
contains no angle bracket and no line terminator, applying the template
(`prefix ++ T ++ suffix`, as `applyCommand` inserts) and then erasing the
resulting span (`stripMarks`, as `eraseHighlight` substitutes) restores `T`
exactly. -/
theorem C1_roundTrip (c key T : Chars)
    (hc : ∀ x ∈ c, cleanChar x = true)
    (hk : ∀ x ∈ key.map Char.toLower, cleanChar x = true)
    (hT : cleanText T) :
    stripMarks (styleTag c ++ T ++ closeTag) = T
    ∧ stripMarks (classTag key ++ T ++ closeTag) = T :=
  ⟨roundTripStyle hc hT, roundTripClass hk hT⟩

/-- C1 witness: the round trip at color `"red"`, key `"Blue"` and the text
`"some <b>text</b>"`. -/
theorem C1_roundTrip_witness :
    (∀ x ∈ "red".toList, cleanChar x = true)
    ∧ (∀ x ∈ "Blue".toList.map Char.toLower, cleanChar x = true)
    ∧ cleanText "some <b>text</b>".toList
    ∧ (stripMarks (styleTag "red".toList ++ "some <b>text</b>".toList ++ closeTag)
        = "some <b>text</b>".toList
      ∧ stripMarks (classTag "Blue".toList ++ "some <b>text</b>".toList ++ closeTag)
        = "some <b>text</b>".toList) :=
  ⟨by decide, by decide, by decide,
    C1_roundTrip "red".toList "Blue".toList "some <b>text</b>".toList
      (by decide) (by decide) (by decide)⟩

/-- C2 (counterexample): with toggling enabled and no prior selection, a
cursor inside existing markup does *not* make the add-highlight command strip
that markup.  On the line `a <mark class="hltr-b">hi</mark> c` with the
cursor at column 3 — inside the mark region `[2, 32]` — `selectWordIfNone`
selects only the space-bounded fragment `<mark`, which fails the
`/<mark\b[^>]*>/i` test, so the command nests a new highlight instead of
stripping (the claim predicts the stripped buffer `a hi c`). -/
theorem C2_counterexample :
    findMarkRegion "a <mark class=\"hltr-b\">hi</mark> c".toList 3 = some (2, 32)
    ∧ (applyToggleNoSel (styleTag "red".toList) closeTag 0
        "a <mark class=\"hltr-b\">hi</mark> c".toList 3).line
      = "a <mark style=\"background: red;\"><mark</mark> class=\"hltr-b\">hi</mark> c".toList
    ∧ (applyToggleNoSel (styleTag "red".toList) closeTag 0
        "a <mark class=\"hltr-b\">hi</mark> c".toList 3).line
      ≠ "a hi c".toList := by
  refine ⟨by decide, by decide, by decide⟩

/-- C2 (amended): the strip branch of the toggling path runs exactly when the
selected text matches `/<mark\b[^>]*>/i`; when it does (for a user-made
single-line selection `sel` with the line `a ++ sel ++ b`), the command
replaces the selection by `stripMarks sel` and selects from the selection
start to start plus the stripped length on the same line, inserting no
prefix or suffix.  With no prior selection, the word under a cursor inside
template-produced markup never contains a complete opening tag (the tag has
an inner space), so a new highlight is inserted instead. -/
theorem C2_toggleStrip (pre suf : Chars) (lineNo : Nat) (a sel b : Chars)
    (hne : sel ≠ []) (hm : markOpenTest sel = true) :
    applyToggleWithSel pre suf lineNo a sel b =
      { line := a ++ stripMarks sel ++ b
        selFrom := some ⟨lineNo, a.length⟩
        selTo := some ⟨lineNo, a.length + (stripMarks sel).length⟩
        cursor := none } := by
  unfold applyToggleWithSel
  rw [if_pos ⟨hne, hm⟩]

/-- C2 witness: stripping a user-selected inline-style highlight. -/
theorem C2_toggleStrip_witness :
    ("<mark style=\"background: red;\">hi</mark>".toList ≠ ([] : Chars))
    ∧ markOpenTest "<mark style=\"background: red;\">hi</mark>".toList = true
    ∧ applyToggleWithSel (styleTag "red".toList) closeTag 0
        "x ".toList "<mark style=\"background: red;\">hi</mark>".toList " y".toList =
      { line := "x hi y".toList
        selFrom := some ⟨0, 2⟩
        selTo := some ⟨0, 4⟩
        cursor := none } := by
  refine ⟨by decide, by decide, ?_⟩
  have h := C2_toggleStrip (styleTag "red".toList) closeTag 0
    "x ".toList "<mark style=\"background: red;\">hi</mark>".toList " y".toList
    (by decide) (by decide)
  rw [h]
  decide

/-- C3 (counterexample): the merge guard compares the *last character* of the
preceding text (`pre.slice(-1)`), not its last non-whitespace character.  With
the inline-style template for `"red"` (31-character prefix) and a preceding
text of 31 characters ending in `"> "`, the specification's condition holds
(`suf` matches the trimmed suffix, the last non-whitespace character of the
preceding text is `'>'`, the selection `"A"` is non-empty) yet the code's
guard is false and the insert branch runs instead of the merge. -/
theorem C3_counterexample :
    mergeCondSpec (styleTag "red".toList) closeTag
      (List.replicate 29 'q' ++ ['>', ' ']) (closeTag.take closeTag.length) "A".toList
    ∧ mergeCondCode (styleTag "red".toList) closeTag
      (List.replicate 29 'q' ++ ['>', ' ']) (closeTag.take closeTag.length) "A".toList = false
    ∧ (applyNoToggle (styleTag "red".toList) closeTag 0
        (List.replicate 29 'q' ++ ['>', ' ']) "A".toList (closeTag ++ " tail".toList)).line
      = (List.replicate 29 'q' ++ ['>', ' ']) ++ styleTag "red".toList ++ "A".toList
        ++ closeTag ++ (closeTag ++ " tail".toList) := by
  refine ⟨by decide, by decide, by decide⟩

/-- C3 (amended): in the toggling-disabled path (for the `highlight` command,
whose `line` field is 0, on the line `a ++ sel ++ b`), the merge branch is
taken exactly when the text of length `suffix.length` following the selection
equals the suffix with trailing whitespace trimmed, the *last character* of
the text of length `prefix.length` preceding the selection equals the last
character of the prefix with leading whitespace trimmed, and the selection is
non-empty; when taken it replaces the combined range with just the selection
and puts the cursor at column `to.ch + (-(prefix.length + suffix.length + 1)
+ 8)`; otherwise it inserts `prefix ++ sel ++ suffix` and puts the cursor at
`to.ch + cursorOffset`. -/
theorem C3_merge (pre suf : Chars) (lineNo : Nat) (a sel b : Chars) :
    (mergeCondCode pre suf (a.drop (a.length - pre.length)) (b.take suf.length) sel = true
      ↔ (b.take suf.length = trimEndL suf
         ∧ lastStr (a.drop (a.length - pre.length)) = lastStr (trimStartL pre)
         ∧ sel ≠ []))
    ∧ (mergeCondCode pre suf (a.drop (a.length - pre.length)) (b.take suf.length) sel = true →
        applyNoToggle pre suf lineNo a sel b =
          { line := a.take (a.length - pre.length) ++ sel ++ b.drop suf.length
            cursorLine := lineNo
            cursorCh := ((a.length : Int) + sel.length)
              + (((pre.length : Int) + suf.length + 1) * (-1) + 8) })
    ∧ (mergeCondCode pre suf (a.drop (a.length - pre.length)) (b.take suf.length) sel = false →
        applyNoToggle pre suf lineNo a sel b =
          { line := a ++ pre ++ sel ++ suf ++ b
            cursorLine := lineNo
            cursorCh := ((a.length : Int) + sel.length)
              + (if sel.length > 0 then (pre.length : Int) + suf.length + 1
                 else (pre.length : Int)) }) := by
  refine ⟨?_, ?_, ?_⟩
  · unfold mergeCondCode
    simp [List.isEmpty_iff, and_assoc]
  · intro h
    have hsel : sel ≠ [] := by
      unfold mergeCondCode at h
      simp [List.isEmpty_iff] at h
      exact h.2
    unfold applyNoToggle
    rw [if_pos h]
    have hlen : sel.length > 0 := List.length_pos.mpr hsel
    rw [if_pos hlen]
  · intro h
    unfold applyNoToggle
    rw [if_neg (by rw [h]; exact Bool.false_ne_true)]

/-- C3 witness: a merge at a preceding text whose final character is `'>'`. -/
theorem C3_merge_witness :
    mergeCondCode (styleTag "red".toList) closeTag
      ((List.replicate 30 'q' ++ ['>']).drop
        ((List.replicate 30 'q' ++ ['>'] : Chars).length - (styleTag "red".toList).length))
      ((closeTag ++ " tail".toList).take closeTag.length) "A".toList = true
    ∧ applyNoToggle (styleTag "red".toList) closeTag 0
        (List.replicate 30 'q' ++ ['>']) "A".toList (closeTag ++ " tail".toList) =
      { line := (List.replicate 30 'q' ++ ['>'] : Chars).take
            ((List.replicate 30 'q' ++ ['>'] : Chars).length - (styleTag "red".toList).length)
          ++ "A".toList ++ (closeTag ++ " tail".toList).drop closeTag.length
        cursorLine := 0
        cursorCh := (((List.replicate 30 'q' ++ ['>'] : Chars).length : Int) + ("A".toList).length)
          + ((((styleTag "red".toList).length : Int) + closeTag.length + 1) * (-1) + 8) } := by
  refine ⟨by decide, ?_⟩
  exact (C3_merge (styleTag "red".toList) closeTag 0
    (List.replicate 30 'q' ++ ['>']) "A".toList (closeTag ++ " tail".toList)).2.1 (by decide)

/-- C4 (confirmed): the `newTo` computed by `eraseHighlight` in toggling mode
satisfies: its line is `from.line` plus the number of line breaks in the
stripped text, and its column is `from.ch + length` when there is no break and
the length of the final segment otherwise; in particular, for a stripped text
spanning 3 lines, `newTo = {line: from.line + 2, ch: length of the third
segment}` (checked on `"ab\ncde\nfg"` from `{5, 7}`). -/
theorem C4_eraseNewTo :
    (∀ (f : Pos) (s : Chars),
      eraseNewTo f s =
        ⟨f.line + s.count '\n',
         if s.count '\n' = 0 then f.ch + s.length else (lastSeg s).length⟩)
    ∧ eraseNewTo ⟨5, 7⟩ "ab\ncde\nfg".toList = ⟨7, 2⟩ := by
  constructor
  · intro f s
    unfold eraseNewTo
    by_cases hcount : s.count '\n' = 0
    · have hnc : ¬ s.contains '\n' := by
        rw [contains_iff_memc]
        exact List.count_eq_zero.mp hcount
      rw [splitNl_no_nl hnc]
      simp [hcount]
    · have hlen := splitNl_len s
      rw [if_neg (by omega), if_neg hcount]
      have hlast : (splitNl s).getLastD [] = lastSeg s := by
        rw [List.getLastD_eq_getLast?, splitNl_last]
        rfl
      rw [hlen, hlast]
      simp
  · decide

/-- C5 (confirmed): erasing a buffer region whose text contains no
inline-style opening tag, no css-class opening tag and no closing tag leaves
the buffer byte-identical: the three substitutions are the identity on the
span text, and replacing the range with it restores the buffer. -/
theorem C5_eraseIdempotent (b : Buffer) (f t : Pos)
    (wf : ∀ l ∈ b, ¬ l.contains '\n')
    (hft : f.line ≤ t.line) (ht : t.line < b.length)
    (hcc : f.line = t.line → f.ch ≤ t.ch)
    (h1 : ¬ litStyle <:+: getRangeB b f t)
    (h2 : ¬ litClass <:+: getRangeB b f t)
    (h3 : ¬ litClose <:+: getRangeB b f t) :
    eraseBufferText b f t = b := by
  unfold eraseBufferText
  have hid : stripMarks (getRangeB b f t) = getRangeB b f t := by
    unfold stripMarks
    rw [replOpen_id h1, replOpen_id h2, replLit_id h3]
  rw [hid]
  exact splice_identity wf hft ht hcc

/-- C5 witness: erasing the tag-free two-line region from `(0,2)` to `(1,3)`
of `["hello world", "second line"]` leaves the buffer unchanged. -/
theorem C5_eraseIdempotent_witness :
    (∀ l ∈ (["hello world".toList, "second line".toList] : Buffer), ¬ l.contains '\n')
    ∧ (0 : Nat) ≤ 1 ∧ 1 < ([ "hello world".toList, "second line".toList ] : Buffer).length
    ∧ ((0 : Nat) = 1 → (2 : Nat) ≤ 3)
    ∧ ¬ litStyle <:+: getRangeB ["hello world".toList, "second line".toList] ⟨0, 2⟩ ⟨1, 3⟩
    ∧ ¬ litClass <:+: getRangeB ["hello world".toList, "second line".toList] ⟨0, 2⟩ ⟨1, 3⟩
    ∧ ¬ litClose <:+: getRangeB ["hello world".toList, "second line".toList] ⟨0, 2⟩ ⟨1, 3⟩
    ∧ eraseBufferText ["hello world".toList, "second line".toList] ⟨0, 2⟩ ⟨1, 3⟩
      = ["hello world".toList, "second line".toList] :=
  ⟨by decide, by decide, by decide, by decide, by decide, by decide, by decide,
    C5_eraseIdempotent ["hello world".toList, "second line".toList] ⟨0, 2⟩ ⟨1, 3⟩
      (by decide) (by decide) (by decide) (by decide) (by decide) (by decide) (by decide)⟩

/-- C6 (confirmed): for every line and cursor column, the scan of
`selectMarkRegionIfInside` returns exactly the first candidate region — scan
candidates pair each `"<mark"` occurrence with the end of the first
`"</mark>"` after it, the scan resuming past each candidate's close index and
stopping when either search fails — whose inclusive bracket contains the
cursor column; on `x <mark class="hltr-a">hi</mark> y` with the cursor at
column 10 it selects from the `<` of `<mark` (column 2) through the end of
`</mark>` (column 32). -/
theorem C6_markRegionScan :
    (∀ (lineText : Chars) (ch : Nat),
      findMarkRegion lineText ch = markRegionSpec lineText ch)
    ∧ findMarkRegion "x <mark class=\"hltr-a\">hi</mark> y".toList 10 = some (2, 32) := by
  constructor
  · intro lineText ch
    exact findMarkRegionF_spec lineText ch (lineText.length + 1) 0
  · decide

/-- C7 (confirmed): with no active selection, `selectWordIfNone` expands from
the cursor column over non-space characters, stopping at a space or the line
boundary on each side: the returned range contains the cursor, contains no
space character, and is delimited by a space or the line boundary; on
`"abc def ghi"` with the cursor at column 5 it selects columns 4 to 7,
i.e. `"def"`. -/
theorem C7_wordBoundary :
    (∀ (l : Chars) (ch : Nat), ch ≤ l.length →
      wordStart l ch ≤ ch ∧ ch ≤ wordEnd l ch ∧ wordEnd l ch ≤ l.length
      ∧ (∀ i, wordStart l ch ≤ i → i < wordEnd l ch → l.get? i ≠ some ' ')
      ∧ (wordStart l ch = 0 ∨ l.get? (wordStart l ch - 1) = some ' ')
      ∧ (wordEnd l ch = l.length ∨ l.get? (wordEnd l ch) = some ' '))
    ∧ wordStart "abc def ghi".toList 5 = 4
    ∧ wordEnd "abc def ghi".toList 5 = 7
    ∧ wordSlice "abc def ghi".toList 5 = "def".toList := by
  refine ⟨?_, by decide, by decide, by decide⟩
  intro l ch hch
  refine ⟨wordStart_le l ch, wordEnd_ge l ch, wordEnd_le l ch hch, ?_, wordStart_boundary l ch, ?_⟩
  · intro i h1 h2
    by_cases hi : i < ch
    · exact wordStart_no_space l ch i h1 hi
    · exact wordEnd_no_space l ch i (by omega) h2
  · rcases wordEnd_boundary l ch with h | h
    · refine Or.inl ?_
      rw [h, List.length_drop]
      omega
    · exact Or.inr h

/-- C7 witness: the word-boundary characterization instantiated on
`"abc def ghi"` at cursor column 5. -/
theorem C7_wordBoundary_witness :
    (5 : Nat) ≤ ("abc def ghi".toList).length
    ∧ (wordStart "abc def ghi".toList 5 ≤ 5 ∧ 5 ≤ wordEnd "abc def ghi".toList 5
      ∧ wordEnd "abc def ghi".toList 5 ≤ ("abc def ghi".toList).length
      ∧ (∀ i, wordStart "abc def ghi".toList 5 ≤ i → i < wordEnd "abc def ghi".toList 5 →
          ("abc def ghi".toList).get? i ≠ some ' ')
      ∧ (wordStart "abc def ghi".toList 5 = 0
          ∨ ("abc def ghi".toList).get? (wordStart "abc def ghi".toList 5 - 1) = some ' ')
      ∧ (wordEnd "abc def ghi".toList 5 = ("abc def ghi".toList).length
          ∨ ("abc def ghi".toList).get? (wordEnd "abc def ghi".toList 5) = some ' ')) :=
  ⟨by decide, C7_wordBoundary.1 "abc def ghi".toList 5 (by decide)⟩

/-- C8 (counterexample): template resolution never fails.  With an empty
color mapping in inline-style mode, resolving the key `"red"` raises no error
and silently builds the prefix `<mark style="background: undefined;">` — the
JS property read of a missing key interpolates as the literal text
`undefined`. -/
theorem C8_counterexample :
    commandsMapPre ⟨"inline-styles", []⟩ "red"
      = "<mark style=\"background: undefined;\">".toList
    ∧ "undefined".toList <:+: commandsMapPre ⟨"inline-styles", []⟩ "red" := by
  refine ⟨by decide, by decide⟩

/-- C8 (amended): resolution is total.  In inline-style mode a key absent
from the color mapping yields the prefix with the literal color text
`undefined`; in css-class mode the color mapping is never consulted and the
prefix is built from the lowercased key alone. -/
theorem C8_resolution (s : HSettings) (key : String) :
    (s.highlighterMethods ≠ "css-classes" →
      s.highlighters.find? (fun p => p.1 == key) = none →
      commandsMapPre s key = styleTag "undefined".toList)
    ∧ (s.highlighterMethods = "css-classes" →
      commandsMapPre s key = classTag key.toList) := by
  constructor
  · intro hm hfind
    unfold commandsMapPre jsIndex
    rw [if_neg hm, hfind]
  · intro hm
    unfold commandsMapPre
    rw [if_pos hm]

/-- C8 witness: resolution of a missing key in inline-style mode. -/
theorem C8_resolution_witness :
    ("inline-styles" : String) ≠ "css-classes"
    ∧ ((⟨"inline-styles", []⟩ : HSettings).highlighters.find? (fun p => p.1 == "red") = none)
    ∧ commandsMapPre ⟨"inline-styles", []⟩ "red" = styleTag "undefined".toList :=
  ⟨by decide, by decide,
    (C8_resolution ⟨"inline-styles", []⟩ "red").1 (by decide) (by decide)⟩

/-- C9 (counterexample): the coordinate arithmetic of `applyCommand` does not
clamp.  With the cursor at column 0 and the 31-character inline-style prefix
for `"red"`, the computed `preStart` column is `-31`, an out-of-bounds
(negative) position rather than a clamped one. -/
theorem C9_counterexample :
    preStartCh 0 (styleTag "red".toList).length = -31
    ∧ preStartCh 0 (styleTag "red".toList).length < 0 := by
  refine ⟨by decide, by decide⟩

/-- C9 (amended): the `preStart`/`sufEnd` coordinate computations of
`applyCommand` are raw unclamped arithmetic: `preStart.ch` is exactly
`from.ch - prefix.length` (negative whenever the prefix is longer than the
available columns) and `sufEnd.ch` is exactly `to.ch + suffix.length`
(exceeding the line length whenever `to.ch + suffix.length` does); any
clamping happens in the host editor, not in this code. -/
theorem C9_noClamp (fromCh plen toCh slen : Nat) :
    preStartCh fromCh plen = (fromCh : Int) - plen
    ∧ sufEndCh toCh slen = (toCh : Int) + slen
    ∧ (fromCh < plen → preStartCh fromCh plen < 0)
    ∧ (∀ lineLen : Nat, lineLen < toCh + slen → (lineLen : Int) < sufEndCh toCh slen) := by
  refine ⟨rfl, rfl, ?_, ?_⟩
  · intro h
    unfold preStartCh
    omega
  · intro lineLen h
    unfold sufEndCh
    omega

/-- C9 witness: the unclamped computations at `from.ch = 0`, a 31-character
prefix, `to.ch = 5`, a 7-character suffix, on a line of length 8. -/
theorem C9_noClamp_witness :
    (0 : Nat) < 31 ∧ (8 : Nat) < 5 + 7
    ∧ preStartCh 0 31 < 0 ∧ ((8 : Nat) : Int) < sufEndCh 5 7 :=
  ⟨by decide, by decide, (C9_noClamp 0 31 5 7).2.2.1 (by decide),
    (C9_noClamp 0 31 5 7).2.2.2 8 (by decide)⟩

/-- C10 (confirmed): the buffer effect of `eraseHighlight` is confined to the
erased span: lines above `from.line` are unchanged, lines below `to.line`
are unchanged (found after the spliced lines), the first `from.ch` characters
of the start line are preserved, and the tail of the end line after `to.ch`
is preserved at the end of the last spliced line. -/
theorem C10_eraseFrame (b : Buffer) (f t : Pos) (h : f.line ≤ b.length) :
    (eraseBufferText b f t).take f.line = b.take f.line
    ∧ (eraseBufferText b f t).drop
        (f.line + (splitNl (stripMarks (getRangeB b f t))).length) = b.drop (t.line + 1)
    ∧ (∃ rest, (eraseBufferText b f t).get? f.line
        = some (((b.get? f.line).getD []).take f.ch ++ rest))
    ∧ (∃ p, (eraseBufferText b f t).get?
          (f.line + (splitNl (stripMarks (getRangeB b f t))).length - 1)
        = some (p ++ ((b.get? t.line).getD []).drop t.ch)) :=
  ⟨replaceRangeB_take h, replaceRangeB_drop h, replaceRangeB_head h, replaceRangeB_last h⟩

/-- C10 witness: the frame conditions at the single-line mark region located
by the scan on `ab<mark style="background: red;">hi</mark>cd` (span `[2, 42]`
on line 0 of a two-line buffer). -/
theorem C10_eraseFrame_witness :
    findMarkRegion "ab<mark style=\"background: red;\">hi</mark>cd".toList 10 = some (2, 42)
    ∧ (0 : Nat) ≤ (["ab<mark style=\"background: red;\">hi</mark>cd".toList, "next".toList] : Buffer).length
    ∧ ((eraseBufferText ["ab<mark style=\"background: red;\">hi</mark>cd".toList, "next".toList]
          ⟨0, 2⟩ ⟨0, 42⟩).take 0
        = (["ab<mark style=\"background: red;\">hi</mark>cd".toList, "next".toList] : Buffer).take 0
      ∧ (eraseBufferText ["ab<mark style=\"background: red;\">hi</mark>cd".toList, "next".toList]
          ⟨0, 2⟩ ⟨0, 42⟩).drop
          (0 + (splitNl (stripMarks (getRangeB
            ["ab<mark style=\"background: red;\">hi</mark>cd".toList, "next".toList]
            ⟨0, 2⟩ ⟨0, 42⟩))).length)
        = (["ab<mark style=\"background: red;\">hi</mark>cd".toList, "next".toList] : Buffer).drop (0 + 1)
      ∧ (∃ rest, (eraseBufferText ["ab<mark style=\"background: red;\">hi</mark>cd".toList, "next".toList]
            ⟨0, 2⟩ ⟨0, 42⟩).get? 0
          = some ((((["ab<mark style=\"background: red;\">hi</mark>cd".toList, "next".toList] : Buffer).get? 0).getD []).take 2 ++ rest))
      ∧ (∃ p, (eraseBufferText ["ab<mark style=\"background: red;\">hi</mark>cd".toList, "next".toList]
            ⟨0, 2⟩ ⟨0, 42⟩).get?
            (0 + (splitNl (stripMarks (getRangeB
              ["ab<mark style=\"background: red;\">hi</mark>cd".toList, "next".toList]
              ⟨0, 2⟩ ⟨0, 42⟩))).length - 1)
          = some (p ++ (((["ab<mark style=\"background: red;\">hi</mark>cd".toList, "next".toList] : Buffer).get? 0).getD []).drop 42))) :=
  ⟨by decide, by decide,
    C10_eraseFrame ["ab<mark style=\"background: red;\">hi</mark>cd".toList, "next".toList]
      ⟨0, 2⟩ ⟨0, 42⟩ (by decide)⟩

end Highlightr
